import Mathlib

/-!
Verification of `duplicate_finder.py` (duplicate file finder).

The scan pipeline (`find_duplicates`) is embedded as a pure function over a
list of directory entries: a first pass groups surviving regular files into
size buckets (insertion-ordered, as Python's `defaultdict` preserves
insertion order), a second pass hashes only the members of buckets with two
or more files and groups them by digest, and the result keeps only digest
groups with two or more members.  The digest algorithm is a parameter
`h : List Nat → Nat` standing for MD5/SHA-256 over the file's byte content.
Read failures (`get_file_hash` returning `None`) are modelled by the
`readable` flag and collected into an error list standing for the per-file
error messages the script prints.  The report (`display_duplicates`) and the
interactive deletion loop (`interactive_delete`) are embedded separately,
taking the duplicates mapping and the stream of user responses as inputs.
-/

/-- A directory entry as seen by the scanner: `path` identifies it, `name`
is its final component (used for the hidden-file convention), `isFile`
distinguishes regular files from directories, `statOk` is whether `stat`
succeeds, `size` and `mtime` its stat data, `readable` whether opening and
reading it for hashing succeeds, and `content` its byte content. -/
structure FileEntry where
  path : String
  name : String
  isFile : Bool
  statOk : Bool
  size : Nat
  mtime : String
  readable : Bool
  content : List Nat
  deriving DecidableEq, Repr, Inhabited

/-- Insertion-ordered grouping map, as built by Python's
`defaultdict(list)`: appending `v` under key `k` extends the existing
bucket for `k`, or adds a new bucket at the end. -/
def insertGroup {κ α : Type} [DecidableEq κ]
    (m : List (κ × List α)) (k : κ) (v : α) : List (κ × List α) :=
  match m with
  | [] => [(k, [v])]
  | (k', vs) :: rest =>
      if k' = k then (k', vs ++ [v]) :: rest
      else (k', vs) :: insertGroup rest k v

/-- `x` occurs in some bucket of the grouping map `m`. -/
def memberOf {κ α : Type} (m : List (κ × List α)) (x : α) : Prop :=
  ∃ p ∈ m, x ∈ p.2

/-- `get_file_hash`: returns the digest of the file's content, or `none`
when reading the file fails with an I/O error (the script prints the error
and returns `None`). -/
def get_file_hash (h : List Nat → Nat) (f : FileEntry) : Option Nat :=
  if f.readable then some (h f.content) else none

/-- Stat result used by the report: `{'size': ..., 'modified': ...}`. -/
structure FileInfo where
  size : Nat
  modified : String
  deriving DecidableEq, Repr

/-- `get_file_info`: file size and modification time from `os.stat`; on
`OSError` it returns size `0` and modification time `"Unknown"`. -/
def get_file_info (f : FileEntry) : FileInfo :=
  if f.statOk then ⟨f.size, f.mtime⟩ else ⟨0, "Unknown"⟩

/-- One traversal step of the first pass: an entry that is a regular file,
whose `stat` succeeds and whose size is at least `minSize` is appended to
the size bucket of its size; everything else is skipped. -/
def sizeStep (minSize : Nat) (m : List (Nat × List FileEntry))
    (f : FileEntry) : List (Nat × List FileEntry) :=
  if f.isFile ∧ f.statOk ∧ minSize ≤ f.size then insertGroup m f.size f
  else m

/-- First pass of `find_duplicates`: group the surviving traversed entries
into size buckets, in traversal order. -/
def sizeMap (files : List FileEntry) (minSize : Nat) :
    List (Nat × List FileEntry) :=
  files.foldl (sizeStep minSize) []

/-- One hashing step of the second pass: a readable file is appended to the
digest bucket of its digest; a file whose read fails is recorded in the
error list instead (the script prints the error message). -/
def hashStep (h : List Nat → Nat)
    (acc : List (Nat × List FileEntry) × List FileEntry) (f : FileEntry) :
    List (Nat × List FileEntry) × List FileEntry :=
  match get_file_hash h f with
  | some d => (insertGroup acc.1 d f, acc.2)
  | none => (acc.1, acc.2 ++ [f])

/-- One size bucket of the second pass: only buckets with two or more
members are hashed; a singleton bucket is passed over untouched. -/
def bucketStep (h : List Nat → Nat)
    (acc : List (Nat × List FileEntry) × List FileEntry)
    (q : Nat × List FileEntry) :
    List (Nat × List FileEntry) × List FileEntry :=
  if q.2.length > 1 then q.2.foldl (hashStep h) acc else acc

/-- Second pass of `find_duplicates`: fold the size buckets into the digest
map (and read failures into the error list) in bucket order. -/
def hashPhase (h : List Nat → Nat) (sm : List (Nat × List FileEntry)) :
    List (Nat × List FileEntry) × List FileEntry :=
  sm.foldl (bucketStep h) ([], [])

/-- The files handed to the hashing phase: members of size buckets that
have two or more files. -/
def filesToHash (sm : List (Nat × List FileEntry)) : List FileEntry :=
  ((sm.filter fun p => p.2.length > 1).map Prod.snd).flatten

/-- Why `find_duplicates` returns without scanning: the root does not exist,
or it is not a directory. -/
inductive ScanError where
  | notFound
  | notADirectory
  deriving DecidableEq, Repr

/-- Result of a completed scan: the duplicates mapping (digest to the files
sharing it, only groups of two or more) and the list of files whose read
failed during hashing. -/
structure ScanResult where
  duplicates : List (Nat × List FileEntry)
  errors : List FileEntry
  deriving DecidableEq, Repr

/-- `find_duplicates`: checks that the root exists and is a directory
(otherwise it reports the error and produces nothing), groups surviving
files by size, hashes only multi-member size buckets, and keeps the digest
groups with two or more members. -/
def find_duplicates (rootExists rootIsDir : Bool) (files : List FileEntry)
    (minSize : Nat) (h : List Nat → Nat) : Except ScanError ScanResult :=
  if !rootExists then .error .notFound
  else if !rootIsDir then .error .notADirectory
  else
    let sm := sizeMap files minSize
    let hp := hashPhase h sm
    .ok ⟨hp.1.filter fun p => p.2.length > 1, hp.2⟩

/-- `item.name.startswith('.')`: the hidden-file naming convention, i.e.
the name's first character is a dot. -/
def is_hidden (f : FileEntry) : Bool :=
  match f.name.data with
  | [] => false
  | c :: _ => c = '.'

/-- Size attributed to a duplicate set by the report: the stat size of the
set's first member (`get_file_info(filepaths[0])['size']`). -/
def firstSize : List FileEntry → Nat
  | [] => 0
  | f :: _ => (get_file_info f).size

/-- `display_duplicates`'s running total of wasted space: it accumulates
`file_size * (len(filepaths) - 1)` over the duplicate sets. -/
def totalWasted (dups : List (Nat × List FileEntry)) : Nat :=
  dups.foldl (fun acc p => acc + firstSize p.2 * (p.2.length - 1)) 0

/-- Python `str.strip()`: drop leading and trailing whitespace. -/
def pyStrip (cs : List Char) : List Char :=
  ((cs.dropWhile (·.isWhitespace)).reverse.dropWhile (·.isWhitespace)).reverse

/-- `choice.strip().lower()` applied to a raw response. -/
def norm (s : String) : String :=
  ⟨(pyStrip s.data).map Char.toLower⟩

/-- Digit-string value, as read by Python `int()` after sign handling:
defined on nonempty all-digit strings, `None` elsewhere (`ValueError`). -/
def parseNatDigits (cs : List Char) : Option Nat :=
  if cs ≠ [] ∧ cs.all (·.isDigit) then
    some (cs.foldl (fun n c => n * 10 + (c.toNat - '0'.toNat)) 0)
  else none

/-- Python `int(choice)` on an already-stripped string: an optional sign
followed by digits; `none` models the `ValueError` branch. -/
def parseInt (s : String) : Option Int :=
  match s.data with
  | '-' :: rest => (parseNatDigits rest).map (fun n => -(n : Int))
  | '+' :: rest => (parseNatDigits rest).map (fun n => (n : Int))
  | cs => (parseNatDigits cs).map (fun n => (n : Int))

/-- One duplicate set of the interactive deletion loop: consumes responses
until `q` (abort the whole run), `s` (skip the set), or a valid keep index
followed by a confirmation; returns the files whose deletion is attempted,
the remaining responses, and whether the run aborts.  Running out of
responses is modelled as an abort (`input()` at EOF ends the program). -/
def runSet (set : List FileEntry) : List String →
    List FileEntry × List String × Bool
  | [] => ([], [], true)
  | c :: rest =>
      let c' := norm c
      if c' = "q" then ([], rest, true)
      else if c' = "s" then ([], rest, false)
      else
        match parseInt c' with
        | none => runSet set rest
        | some n =>
            if 0 ≤ n - 1 ∧ n - 1 < (set.length : Int) then
              match rest with
              | [] => ([], [], true)
              | conf :: rest2 =>
                  if norm conf = "y" then
                    (set.eraseIdx (n - 1).toNat, rest2, false)
                  else ([], rest2, false)
            else runSet set rest

/-- `interactive_delete`: processes the duplicate sets in order, feeding
each the remaining response stream; an abort ends the run, keeping the
deletions already attempted.  Returns every file whose deletion was
attempted, in order. -/
def runSets (sets : List (List FileEntry)) (inputs : List String) :
    List FileEntry :=
  match sets with
  | [] => []
  | s :: rest =>
      let r := runSet s inputs
      if r.2.2 then r.1 else r.1 ++ runSets rest r.2.1

/-! Concrete fixtures used by counterexamples and witnesses. -/

/-- A healthy 1-byte file. -/
def fxA : FileEntry := ⟨"/r/a", "a", true, true, 1, "2024-01-01", true, [0]⟩

/-- A second 1-byte file with different content. -/
def fxB : FileEntry := ⟨"/r/b", "b", true, true, 1, "2024-01-01", true, [1]⟩

/-- A 2-byte file whose digest under `fxCollide` equals `fxA`'s. -/
def fxC : FileEntry := ⟨"/r/c", "c", true, true, 2, "2024-01-01", true, [0, 0]⟩

/-- A second 2-byte file with a fresh digest. -/
def fxD : FileEntry := ⟨"/r/d", "d", true, true, 2, "2024-01-01", true, [1, 1]⟩

/-- A digest function with a collision across sizes: the 1-byte content
`[0]` and the 2-byte content `[0, 0]` share digest `0`. -/
def fxCollide : List Nat → Nat :=
  fun c => if c = [0] ∨ c = [0, 0] then 0 else if c = [1] then 1 else 2

/-- A digest function summing the content bytes. -/
def fxSum : List Nat → Nat :=
  fun c => c.sum

/-- A hidden file (leading dot), 5 bytes. -/
def fxH1 : FileEntry := ⟨"/r/.h1", ".h1", true, true, 5, "2024-01-01", true, [7]⟩

/-- A second hidden file with identical size and content. -/
def fxH2 : FileEntry := ⟨"/r/sub/.h2", ".h2", true, true, 5, "2024-01-01", true, [7]⟩

/-- A file whose open/read fails with an I/O error. -/
def fxU : FileEntry := ⟨"/r/u", "u", true, true, 3, "2024-01-01", false, [9]⟩

/-- A readable file of the same size as `fxU`. -/
def fxV : FileEntry := ⟨"/r/v", "v", true, true, 3, "2024-01-01", true, [9]⟩

/-- A subdirectory entry. -/
def fxDir : FileEntry := ⟨"/r/sub", "sub", false, true, 4096, "2024-01-01", true, []⟩

/-- A file whose `stat` fails at display time. -/
def fxStatFail : FileEntry := ⟨"/r/gone", "gone", true, false, 100, "2024-01-01", true, [5]⟩

/-- A healthy 100-byte file (content abbreviated). -/
def fxK1 : FileEntry := ⟨"/r/k1", "k1", true, true, 100, "2024-01-01", true, [5]⟩

/-- A second copy of the 100-byte file. -/
def fxK2 : FileEntry := ⟨"/r/k2", "k2", true, true, 100, "2024-01-01", true, [5]⟩

/-- A third copy of the 100-byte file. -/
def fxK3 : FileEntry := ⟨"/r/k3", "k3", true, true, 100, "2024-01-01", true, [5]⟩

/-! Helper lemmas about the insertion-ordered grouping map. -/

/-- A property of key-value pairs holding everywhere in a grouping map is
preserved by `insertGroup` when the inserted pair satisfies it. -/
theorem insertGroup_forall {κ α : Type} [DecidableEq κ]
    (Q : κ → α → Prop) (m : List (κ × List α)) (k : κ) (v : α)
    (hm : ∀ p ∈ m, ∀ y ∈ p.2, Q p.1 y) (hv : Q k v) :
    ∀ p ∈ insertGroup m k v, ∀ y ∈ p.2, Q p.1 y := by
  induction m with
  | nil =>
      intro p hp y hy
      simp only [insertGroup, List.mem_singleton] at hp
      subst hp
      simp only [List.mem_singleton] at hy
      subst hy
      exact hv
  | cons q rest ih =>
      obtain ⟨k', vs⟩ := q
      intro p hp y hy
      by_cases hk : k' = k
      · subst hk
        simp only [insertGroup, eq_self_iff_true, if_true, List.mem_cons]
          at hp
        rcases hp with hp | hp
        · subst hp
          simp only [List.mem_append, List.mem_singleton] at hy
          rcases hy with hy | hy
          · exact hm (k', vs) (List.mem_cons_self _ _) y hy
          · subst hy; exact hv
        · exact hm p (List.mem_cons_of_mem _ hp) y hy
      · simp only [insertGroup, if_neg hk, List.mem_cons] at hp
        rcases hp with hp | hp
        · subst hp
          exact hm (k', vs) (List.mem_cons_self _ _) y hy
        · exact ih (fun p hp => hm p (List.mem_cons_of_mem _ hp)) p hp y hy

/-- The keys of `insertGroup m k v`: unchanged when `k` is already a key,
extended with `k` at the end otherwise. -/
theorem keys_insertGroup {κ α : Type} [DecidableEq κ]
    (m : List (κ × List α)) (k : κ) (v : α) :
    (insertGroup m k v).map Prod.fst =
      if k ∈ m.map Prod.fst then m.map Prod.fst
      else m.map Prod.fst ++ [k] := by
  induction m with
  | nil => simp [insertGroup]
  | cons q rest ih =>
      obtain ⟨k', vs⟩ := q
      by_cases hk : k' = k
      · subst hk
        simp [insertGroup]
      · simp only [insertGroup, if_neg hk, List.map_cons, ih]
        by_cases hmem : k ∈ rest.map Prod.fst
        · simp [hmem, Ne.symm hk]
        · simp [hmem, Ne.symm hk]

/-- `insertGroup` keeps the keys of the grouping map pairwise distinct. -/
theorem nodup_keys_insertGroup {κ α : Type} [DecidableEq κ]
    (m : List (κ × List α)) (k : κ) (v : α)
    (hm : (m.map Prod.fst).Nodup) :
    ((insertGroup m k v).map Prod.fst).Nodup := by
  rw [keys_insertGroup]
  by_cases hmem : k ∈ m.map Prod.fst
  · simpa [hmem] using hm
  · simp only [if_neg hmem]
    rw [List.nodup_append]
    refine ⟨hm, List.nodup_singleton k, ?_⟩
    intro a ha hb
    rw [List.mem_singleton] at hb
    subst hb
    exact hmem ha

/-- With pairwise-distinct keys, a key determines its bucket. -/
theorem bucket_unique {κ α : Type} (m : List (κ × List α))
    (hnd : (m.map Prod.fst).Nodup) (k : κ) (vs vs' : List α)
    (h1 : (k, vs) ∈ m) (h2 : (k, vs') ∈ m) : vs = vs' := by
  induction m with
  | nil => simp at h1
  | cons q rest ih =>
      simp only [List.map_cons, List.nodup_cons] at hnd
      rcases List.mem_cons.mp h1 with e1 | m1 <;>
        rcases List.mem_cons.mp h2 with e2 | m2
      · rw [← e1] at e2
        exact (Prod.mk.injEq _ _ _ _ |>.mp e2.symm).2
      · exact absurd (List.mem_map_of_mem Prod.fst m2)
          (by rw [← e1] at hnd; exact hnd.1)
      · exact absurd (List.mem_map_of_mem Prod.fst m1)
          (by rw [← e2] at hnd; exact hnd.1)
      · exact ih hnd.2 m1 m2

/-- Membership across `insertGroup`: the members after insertion are the
previous members plus the inserted value. -/
theorem memberOf_insertGroup {κ α : Type} [DecidableEq κ]
    (m : List (κ × List α)) (k : κ) (v x : α) :
    memberOf (insertGroup m k v) x ↔ memberOf m x ∨ x = v := by
  induction m with
  | nil => simp [insertGroup, memberOf]
  | cons q rest ih =>
      obtain ⟨k', vs⟩ := q
      by_cases hk : k' = k
      · subst hk
        simp only [insertGroup, eq_self_iff_true, if_true, memberOf]
        constructor
        · rintro ⟨p, hp, hx⟩
          rcases List.mem_cons.mp hp with e | m1
          · subst e
            rcases List.mem_append.mp hx with hx | hx
            · exact Or.inl ⟨(k', vs), List.mem_cons_self _ _, hx⟩
            · exact Or.inr (List.mem_singleton.mp hx)
          · exact Or.inl ⟨p, List.mem_cons_of_mem _ m1, hx⟩
        · rintro (⟨p, hp, hx⟩ | rfl)
          · rcases List.mem_cons.mp hp with e | m1
            · subst e
              exact ⟨(k', vs ++ [v]), List.mem_cons_self _ _,
                List.mem_append.mpr (Or.inl hx)⟩
            · exact ⟨p, List.mem_cons_of_mem _ m1, hx⟩
          · exact ⟨(k', vs ++ [x]), List.mem_cons_self _ _,
              List.mem_append.mpr (Or.inr (List.mem_singleton.mpr rfl))⟩
      · simp only [insertGroup, if_neg hk, memberOf] at *
        constructor
        · rintro ⟨p, hp, hx⟩
          rcases List.mem_cons.mp hp with e | m1
          · subst e
            exact Or.inl ⟨(k', vs), List.mem_cons_self _ _, hx⟩
          · rcases ih.mp ⟨p, m1, hx⟩ with h | h
            · obtain ⟨p', hp', hx'⟩ := h
              exact Or.inl ⟨p', List.mem_cons_of_mem _ hp', hx'⟩
            · exact Or.inr h
        · rintro (⟨p, hp, hx⟩ | rfl)
          · rcases List.mem_cons.mp hp with e | m1
            · subst e
              exact ⟨(k', vs), List.mem_cons_self _ _, hx⟩
            · obtain ⟨p', hp', hx'⟩ := ih.mpr (Or.inl ⟨p, m1, hx⟩)
              exact ⟨p', List.mem_cons_of_mem _ hp', hx'⟩
          · obtain ⟨p', hp', hx'⟩ := ih.mpr (Or.inr rfl)
            exact ⟨p', List.mem_cons_of_mem _ hp', hx'⟩

/-! Invariants of the size-bucket pass. -/

/-- A property of key-file pairs that holds for every surviving file under
its size holds everywhere in the fold of the first pass. -/
theorem foldl_sizeStep_forall (minSize : Nat) (Q : Nat → FileEntry → Prop)
    (files : List FileEntry) :
    ∀ m : List (Nat × List FileEntry),
      (∀ p ∈ m, ∀ g ∈ p.2, Q p.1 g) →
      (∀ f ∈ files, f.isFile = true → f.statOk = true → minSize ≤ f.size →
        Q f.size f) →
      ∀ p ∈ files.foldl (sizeStep minSize) m, ∀ g ∈ p.2, Q p.1 g := by
  induction files with
  | nil => intro m hm _; simpa using hm
  | cons f fs ih =>
      intro m hm hQ
      rw [List.foldl_cons]
      apply ih
      · unfold sizeStep
        split
        · rename_i hc
          exact insertGroup_forall Q m f.size f hm
            (hQ f (List.mem_cons_self _ _) hc.1 hc.2.1 hc.2.2)
        · exact hm
      · intro g hg h1 h2 h3
        exact hQ g (List.mem_cons_of_mem _ hg) h1 h2 h3

/-- Every member of a size bucket has the bucket's size, is a regular file
whose `stat` succeeded, meets the size floor, and comes from the traversed
entries. -/
theorem sizeMap_inv (files : List FileEntry) (minSize : Nat) :
    ∀ p ∈ sizeMap files minSize, ∀ g ∈ p.2,
      g.size = p.1 ∧ g.isFile = true ∧ g.statOk = true ∧
        minSize ≤ g.size ∧ g ∈ files := by
  unfold sizeMap
  exact foldl_sizeStep_forall minSize
    (fun s g => g.size = s ∧ g.isFile = true ∧ g.statOk = true ∧
      minSize ≤ g.size ∧ g ∈ files)
    files [] (by simp)
    (fun f hf h1 h2 h3 => ⟨rfl, h1, h2, h3, hf⟩)

/-- The fold of the first pass keeps the bucket keys pairwise distinct. -/
theorem nodup_keys_foldl_sizeStep (minSize : Nat) (files : List FileEntry) :
    ∀ m : List (Nat × List FileEntry), (m.map Prod.fst).Nodup →
      ((files.foldl (sizeStep minSize) m).map Prod.fst).Nodup := by
  induction files with
  | nil => intro m hm; simpa using hm
  | cons f fs ih =>
      intro m hm
      rw [List.foldl_cons]
      apply ih
      unfold sizeStep
      split
      · exact nodup_keys_insertGroup m f.size f hm
      · exact hm

/-- The size map has pairwise-distinct size keys: one bucket per size. -/
theorem sizeMap_nodup_keys (files : List FileEntry) (minSize : Nat) :
    ((sizeMap files minSize).map Prod.fst).Nodup :=
  nodup_keys_foldl_sizeStep minSize files [] (by simp)

/-- A file is handed to the hashing phase exactly when it lies in a size
bucket with two or more members. -/
theorem mem_filesToHash (sm : List (Nat × List FileEntry)) (g : FileEntry) :
    g ∈ filesToHash sm ↔ ∃ q ∈ sm, 1 < q.2.length ∧ g ∈ q.2 := by
  simp only [filesToHash, List.mem_flatten, List.mem_map, List.mem_filter,
    gt_iff_lt, decide_eq_true_eq]
  constructor
  · rintro ⟨l, ⟨q, ⟨hq, hlen⟩, rfl⟩, hg⟩
    exact ⟨q, hq, hlen, hg⟩
  · rintro ⟨q, hq, hlen, hg⟩
    exact ⟨q.2, ⟨q, ⟨hq, hlen⟩, rfl⟩, hg⟩

/-! Invariants of the hashing pass. -/

/-- A property holding for every readable hashed file under its digest
holds everywhere in the digest map built by folding one bucket. -/
theorem foldl_hashStep_forall (h : List Nat → Nat) (Q : Nat → FileEntry → Prop)
    (fps : List FileEntry) :
    ∀ acc : List (Nat × List FileEntry) × List FileEntry,
      (∀ p ∈ acc.1, ∀ g ∈ p.2, Q p.1 g) →
      (∀ f ∈ fps, f.readable = true → Q (h f.content) f) →
      ∀ p ∈ (fps.foldl (hashStep h) acc).1, ∀ g ∈ p.2, Q p.1 g := by
  induction fps with
  | nil => intro acc hacc _; simpa using hacc
  | cons f fs ih =>
      intro acc hacc hQ
      rw [List.foldl_cons]
      apply ih
      · by_cases hr : f.readable = true
        · simp only [hashStep, get_file_hash, hr, if_true]
          exact insertGroup_forall Q acc.1 (h f.content) f hacc
            (hQ f (List.mem_cons_self _ _) hr)
        · simp only [hashStep, get_file_hash, hr, if_false,
            Bool.false_eq_true]
          exact hacc
      · intro g hg hr
        exact hQ g (List.mem_cons_of_mem _ hg) hr

/-- As `foldl_hashStep_forall`, over the whole second pass: the property
need only hold for readable members of multi-member buckets. -/
theorem foldl_bucketStep_forall (h : List Nat → Nat)
    (Q : Nat → FileEntry → Prop) (sm : List (Nat × List FileEntry)) :
    ∀ acc : List (Nat × List FileEntry) × List FileEntry,
      (∀ p ∈ acc.1, ∀ g ∈ p.2, Q p.1 g) →
      (∀ q ∈ sm, 1 < q.2.length → ∀ f ∈ q.2, f.readable = true →
        Q (h f.content) f) →
      ∀ p ∈ (sm.foldl (bucketStep h) acc).1, ∀ g ∈ p.2, Q p.1 g := by
  induction sm with
  | nil => intro acc hacc _; simpa using hacc
  | cons q rest ih =>
      intro acc hacc hQ
      rw [List.foldl_cons]
      apply ih
      · unfold bucketStep
        split
        · rename_i hlen
          exact foldl_hashStep_forall h Q q.2 acc hacc
            (fun f hf hr => hQ q (List.mem_cons_self _ _) hlen f hf hr)
        · exact hacc
      · intro q' hq' hlen f hf hr
        exact hQ q' (List.mem_cons_of_mem _ hq') hlen f hf hr

/-- Every member of a digest bucket is readable, digests to the bucket's
key, and comes from a size bucket with two or more members. -/
theorem hashPhase_inv (h : List Nat → Nat) (sm : List (Nat × List FileEntry)) :
    ∀ p ∈ (hashPhase h sm).1, ∀ g ∈ p.2,
      g.readable = true ∧ h g.content = p.1 ∧
        ∃ q ∈ sm, 1 < q.2.length ∧ g ∈ q.2 := by
  unfold hashPhase
  exact foldl_bucketStep_forall h
    (fun d g => g.readable = true ∧ h g.content = d ∧
      ∃ q ∈ sm, 1 < q.2.length ∧ g ∈ q.2)
    sm ([], []) (by simp)
    (fun q hq hlen f hf hr => ⟨hr, rfl, q, hq, hlen, hf⟩)

/-! Lemmas about the read-failure list of the hashing pass. -/

/-- One hashing step never removes recorded read failures. -/
theorem errors_mono_hashStep (h : List Nat → Nat)
    (acc : List (Nat × List FileEntry) × List FileEntry)
    (f x : FileEntry) (hx : x ∈ acc.2) : x ∈ (hashStep h acc f).2 := by
  unfold hashStep
  cases hgf : get_file_hash h f with
  | none => simpa using Or.inl hx
  | some d => simpa using hx

/-- Folding a bucket never removes recorded read failures. -/
theorem errors_mono_foldl_hashStep (h : List Nat → Nat)
    (fps : List FileEntry) :
    ∀ acc, ∀ x ∈ acc.2, x ∈ (fps.foldl (hashStep h) acc).2 := by
  induction fps with
  | nil => intro acc x hx; simpa using hx
  | cons f fs ih =>
      intro acc x hx
      rw [List.foldl_cons]
      exact ih (hashStep h acc f) x (errors_mono_hashStep h acc f x hx)

/-- Folding the size buckets never removes recorded read failures. -/
theorem errors_mono_foldl_bucketStep (h : List Nat → Nat)
    (sm : List (Nat × List FileEntry)) :
    ∀ acc, ∀ x ∈ acc.2, x ∈ (sm.foldl (bucketStep h) acc).2 := by
  induction sm with
  | nil => intro acc x hx; simpa using hx
  | cons q rest ih =>
      intro acc x hx
      rw [List.foldl_cons]
      apply ih
      unfold bucketStep
      split
      · exact errors_mono_foldl_hashStep h q.2 acc x hx
      · exact hx

/-- An unreadable file of a bucket ends up in the failure list of the
bucket's fold. -/
theorem mem_errors_foldl_hashStep (h : List Nat → Nat)
    (fps : List FileEntry) (f : FileEntry) (hf : f ∈ fps)
    (hr : f.readable = false) :
    ∀ acc, f ∈ (fps.foldl (hashStep h) acc).2 := by
  induction fps with
  | nil => cases hf
  | cons g gs ih =>
      intro acc
      rw [List.foldl_cons]
      rcases List.mem_cons.mp hf with rfl | hmem
      · apply errors_mono_foldl_hashStep
        unfold hashStep get_file_hash
        simp [hr]
      · exact ih hmem (hashStep h acc g)

/-- An unreadable member of a multi-member size bucket is recorded in the
read-failure list of the hashing pass. -/
theorem mem_errors_hashPhase (h : List Nat → Nat)
    (sm : List (Nat × List FileEntry)) (q : Nat × List FileEntry)
    (f : FileEntry) (hq : q ∈ sm) (hlen : 1 < q.2.length)
    (hf : f ∈ q.2) (hr : f.readable = false) :
    f ∈ (hashPhase h sm).2 := by
  unfold hashPhase
  suffices hgen : ∀ acc, f ∈ (sm.foldl (bucketStep h) acc).2 from hgen ([], [])
  induction sm with
  | nil => cases hq
  | cons q' rest ih =>
      intro acc
      rw [List.foldl_cons]
      rcases List.mem_cons.mp hq with rfl | hmem
      · apply errors_mono_foldl_bucketStep
        unfold bucketStep
        rw [if_pos hlen]
        exact mem_errors_foldl_hashStep h q.2 f hf hr acc
      · exact ih hmem (bucketStep h acc q')

/-! The report's wasted-space total. -/

/-- The accumulated total of `display_duplicates` equals the sum over the
duplicate sets of the first member's stat size times one less than the
member count. -/
theorem totalWasted_eq_sum (dups : List (Nat × List FileEntry)) :
    totalWasted dups =
      (dups.map fun p => firstSize p.2 * (p.2.length - 1)).sum := by
  unfold totalWasted
  suffices hgen : ∀ n, dups.foldl
      (fun acc p => acc + firstSize p.2 * (p.2.length - 1)) n
      = n + (dups.map fun p => firstSize p.2 * (p.2.length - 1)).sum by
    simpa using hgen 0
  induction dups with
  | nil => intro n; simp
  | cons p rest ih =>
      intro n
      rw [List.foldl_cons, ih, List.map_cons, List.sum_cons, Nat.add_assoc]

/-! Lemmas about the interactive deletion loop. -/

/-- When a set's processing ends in an abort (`q`, or the response stream
running out), no deletion is attempted on that set. -/
theorem runSet_abort_no_deletes (set : List FileEntry) :
    ∀ inputs : List String,
      (runSet set inputs).2.2 = true → (runSet set inputs).1 = [] := by
  intro inputs
  induction inputs with
  | nil => intro _; rfl
  | cons c rest ih =>
      intro habort
      by_cases hq : norm c = "q"
      · simp [runSet, hq]
      · by_cases hs : norm c = "s"
        · simp [runSet, hq, hs]
        · simp only [runSet, hq, hs, if_false] at habort ⊢
          cases hn : parseInt (norm c) with
          | none =>
              simp only [hn] at habort ⊢
              exact ih habort
          | some n =>
              simp only [hn] at habort ⊢
              by_cases hrange : 0 ≤ n - 1 ∧ n - 1 < (set.length : Int)
              · rw [if_pos hrange] at habort ⊢
                cases rest with
                | nil => rfl
                | cons conf rest2 =>
                    by_cases hc : norm conf = "y"
                    · simp [hc] at habort
                    · simp [hc] at habort
              · rw [if_neg hrange] at habort ⊢
                exact ih habort

/-- Shape of a successful scan: the duplicates are the multi-member digest
buckets and the errors are the hashing pass's failure list. -/
theorem find_duplicates_ok (files : List FileEntry) (minSize : Nat)
    (h : List Nat → Nat) (res : ScanResult)
    (hres : find_duplicates true true files minSize h = .ok res) :
    res = ⟨(hashPhase h (sizeMap files minSize)).1.filter
        (fun p => p.2.length > 1),
      (hashPhase h (sizeMap files minSize)).2⟩ := by
  simp only [find_duplicates, Bool.not_true, Bool.false_eq_true, if_false]
    at hres
  exact (Except.ok.injEq _ _ |>.mp hres).symm

/-- C1: a file whose size bucket has exactly one member is never handed to
the hashing phase and never appears in any returned DuplicateSet, and every
file that is handed to the hashing phase lies in a size bucket with two or
more members. -/
theorem claim_C1_unique_size_never_hashed (files : List FileEntry)
    (minSize : Nat) (h : List Nat → Nat) (res : ScanResult) (f : FileEntry)
    (hres : find_duplicates true true files minSize h = .ok res)
    (hb : (f.size, [f]) ∈ sizeMap files minSize) :
    f ∉ filesToHash (sizeMap files minSize) ∧
      (∀ p ∈ res.duplicates, f ∉ p.2) ∧
      (∀ g ∈ filesToHash (sizeMap files minSize),
        ∃ q ∈ sizeMap files minSize, 1 < q.2.length ∧ g ∈ q.2) := by
  have hinv := sizeMap_inv files minSize
  have hnd := sizeMap_nodup_keys files minSize
  have hnot : ∀ q ∈ sizeMap files minSize, 1 < q.2.length → f ∉ q.2 := by
    rintro ⟨q1, q2⟩ hq hlen hfq
    have hsz : f.size = q1 := (hinv (q1, q2) hq f hfq).1
    rw [← hsz] at hq
    have heq := bucket_unique (sizeMap files minSize) hnd f.size [f] q2
      hb hq
    rw [← heq] at hlen
    simp at hlen
  have hnotHash : f ∉ filesToHash (sizeMap files minSize) := by
    intro hf
    obtain ⟨q, hq, hlen, hfq⟩ := (mem_filesToHash _ f).mp hf
    exact hnot q hq hlen hfq
  obtain rfl := find_duplicates_ok files minSize h res hres
  refine ⟨hnotHash, ?_, fun g hg => (mem_filesToHash _ g).mp hg⟩
  intro p hp hf
  have hp1 : p ∈ (hashPhase h (sizeMap files minSize)).1 :=
    (List.mem_filter.mp hp).1
  obtain ⟨q, hq, hlen, hfq⟩ := (hashPhase_inv h _ p hp1 f hf).2.2
  exact hnot q hq hlen hfq

/-- C2 as stated is false at an explicit input: under a digest function
with a collision across sizes (`fxCollide` maps both `[0]` and `[0, 0]` to
digest `0`), the scan of four files merges members of the 1-byte and the
2-byte size buckets into a single returned DuplicateSet — the grouping is
by digest alone, so equal digests from different size buckets DO merge. -/
theorem claim_C2_counterexample :
    find_duplicates true true [fxA, fxB, fxC, fxD] 0 fxCollide =
      .ok ⟨[(0, [fxA, fxC])], []⟩ ∧ fxA.size = 1 ∧ fxC.size = 2 :=
  ⟨rfl, rfl, rfl⟩

/-- C2 (amended): every member of a returned DuplicateSet is readable and
digests to the set's key, so all members share one digest; all members
share one size only under the additional assumption that the digest
function assigns equal digests only to scanned files of equal size. -/
theorem claim_C2_same_digest (files : List FileEntry) (minSize : Nat)
    (h : List Nat → Nat) (res : ScanResult)
    (hres : find_duplicates true true files minSize h = .ok res)
    (hsz : ∀ a ∈ files, ∀ b ∈ files,
      h a.content = h b.content → a.size = b.size) :
    ∀ p ∈ res.duplicates, ∀ a ∈ p.2,
      h a.content = p.1 ∧ ∀ b ∈ p.2, a.size = b.size := by
  obtain rfl := find_duplicates_ok files minSize h res hres
  intro p hp a ha
  have hp1 : p ∈ (hashPhase h (sizeMap files minSize)).1 :=
    (List.mem_filter.mp hp).1
  have hinvA := hashPhase_inv h _ p hp1 a ha
  obtain ⟨qa, hqa, _, hfa⟩ := hinvA.2.2
  have haf : a ∈ files := (sizeMap_inv files minSize qa hqa a hfa).2.2.2.2
  refine ⟨hinvA.2.1, ?_⟩
  intro b hb
  have hinvB := hashPhase_inv h _ p hp1 b hb
  obtain ⟨qb, hqb, _, hfb⟩ := hinvB.2.2
  have hbf : b ∈ files := (sizeMap_inv files minSize qb hqb b hfb).2.2.2.2
  exact hsz a haf b hbf (hinvA.2.1.trans hinvB.2.1.symm)

/-- C3: the total wasted bytes accumulated by the report equal the sum over
the duplicate sets of the first member's stat size times one less than the
member count; a set of three identical 100-byte files contributes 200. -/
theorem claim_C3_total_wasted (dups : List (Nat × List FileEntry)) :
    totalWasted dups =
      (dups.map fun p => firstSize p.2 * (p.2.length - 1)).sum ∧
    totalWasted [(5, [fxK1, fxK2, fxK3])] = 200 :=
  ⟨totalWasted_eq_sum dups, rfl⟩

/-- C4: a file whose read fails during hashing joins no returned
DuplicateSet; if it was in a hashed bucket its failure is recorded in the
error list returned with the result (a count for the caller, not an
abort); and a scan of exactly one 2-member size bucket in which one
member's read fails completes normally with no DuplicateSet and that one
recorded failure. -/
theorem claim_C4_read_failure (files : List FileEntry) (minSize : Nat)
    (h : List Nat → Nat) (res : ScanResult) (f : FileEntry)
    (hres : find_duplicates true true files minSize h = .ok res)
    (hf : f.readable = false) :
    (∀ p ∈ res.duplicates, f ∉ p.2) ∧
    (f ∈ filesToHash (sizeMap files minSize) → f ∈ res.errors) ∧
    (∀ a b : FileEntry, a.isFile = true → a.statOk = true →
      b.isFile = true → b.statOk = true → b.size = a.size →
      a.readable = false → b.readable = true →
      find_duplicates true true [a, b] 0 h = .ok ⟨[], [a]⟩) := by
  obtain rfl := find_duplicates_ok files minSize h res hres
  refine ⟨?_, ?_, ?_⟩
  · intro p hp hfp
    have hp1 : p ∈ (hashPhase h (sizeMap files minSize)).1 :=
      (List.mem_filter.mp hp).1
    have := (hashPhase_inv h _ p hp1 f hfp).1
    rw [hf] at this
    exact Bool.false_ne_true this
  · intro hmem
    obtain ⟨q, hq, hlen, hfq⟩ := (mem_filesToHash _ f).mp hmem
    exact mem_errors_hashPhase h _ q f hq hlen hfq hf
  · intro a b ha1 ha2 hb1 hb2 hba hau hbr
    simp [find_duplicates, sizeMap, sizeStep, hashPhase, bucketStep,
      hashStep, get_file_hash, insertGroup, ha1, ha2, hb1, hb2, hba,
      hau, hbr]

/-- C8: with a root that does not exist the scan fails with the
not-found error, and with a root that is not a directory it fails with the
not-a-directory error; in both cases no scan result (and hence no report
data) is produced. -/
theorem claim_C8_bad_root (files : List FileEntry) (minSize : Nat)
    (h : List Nat → Nat) (d : Bool) :
    find_duplicates false d files minSize h = .error .notFound ∧
    find_duplicates true false files minSize h = .error .notADirectory ∧
    ∀ res : ScanResult,
      find_duplicates false d files minSize h ≠ .ok res ∧
      find_duplicates true false files minSize h ≠ .ok res := by
  refine ⟨rfl, rfl, fun res => ⟨?_, ?_⟩⟩ <;> intro hcontra <;>
    simp [find_duplicates] at hcontra

/-- C9 as stated is false at an explicit input: two identical files whose
names begin with a dot (the hidden-file convention) survive traversal and
appear together in a returned DuplicateSet — `find_duplicates` has no
hidden-name exclusion (only the sibling organizer tool does). -/
theorem claim_C9_counterexample :
    is_hidden fxH1 = true ∧ is_hidden fxH2 = true ∧
    find_duplicates true true [fxH1, fxH2] 0 fxSum =
      .ok ⟨[(7, [fxH1, fxH2])], []⟩ :=
  ⟨by decide, by decide, rfl⟩

/-- C9 (amended): entries that are directories are excluded from the size
buckets and so never appear in any DuplicateSet; entries whose names begin
with a leading dot are NOT excluded by this tool and may appear in
returned DuplicateSets. -/
theorem claim_C9_directories_excluded (files : List FileEntry)
    (minSize : Nat) (h : List Nat → Nat) (res : ScanResult) (f : FileEntry)
    (hres : find_duplicates true true files minSize h = .ok res)
    (hdir : f.isFile = false) :
    ¬ memberOf (sizeMap files minSize) f ∧
      ∀ p ∈ res.duplicates, f ∉ p.2 := by
  obtain rfl := find_duplicates_ok files minSize h res hres
  constructor
  · rintro ⟨q, hq, hfq⟩
    have := (sizeMap_inv files minSize q hq f hfq).2.1
    rw [hdir] at this
    exact Bool.false_ne_true this
  · intro p hp hfp
    have hp1 : p ∈ (hashPhase h (sizeMap files minSize)).1 :=
      (List.mem_filter.mp hp).1
    obtain ⟨q, hq, _, hfq⟩ := (hashPhase_inv h _ p hp1 f hfp).2.2
    have := (sizeMap_inv files minSize q hq f hfq).2.1
    rw [hdir] at this
    exact Bool.false_ne_true this

/-- C10: `get_file_info` is total; when `stat` fails it yields size 0 and
modification time "Unknown", so a duplicate set whose first listed member
cannot be stat-ed at display time is priced at size 0 and contributes 0
bytes to the report's wasted-space total. -/
theorem claim_C10_stat_failure (f : FileEntry) (rest : List FileEntry)
    (d : Nat) (dups : List (Nat × List FileEntry))
    (hf : f.statOk = false) :
    get_file_info f = ⟨0, "Unknown"⟩ ∧
    firstSize (f :: rest) = 0 ∧
    totalWasted ((d, f :: rest) :: dups) = totalWasted dups := by
  have h1 : get_file_info f = ⟨0, "Unknown"⟩ := by
    simp [get_file_info, hf]
  have h2 : firstSize (f :: rest) = 0 := by
    simp [firstSize, h1]
  refine ⟨h1, h2, ?_⟩
  rw [totalWasted_eq_sum, totalWasted_eq_sum, List.map_cons, List.sum_cons]
  simp [h2]

/-- Evaluating one set on a valid keep choice: the next response is the
confirmation; `y` attempts deletion of every member except the kept index,
anything else deletes nothing, and either way the loop moves on. -/
theorem runSet_keep (set : List FileEntry) (i : Nat) (hi : i < set.length)
    (c conf : String) (inputs : List String)
    (hq : norm c ≠ "q") (hs : norm c ≠ "s")
    (hc : parseInt (norm c) = some ((i : Int) + 1)) :
    runSet set (c :: conf :: inputs) =
      if norm conf = "y" then (set.eraseIdx i, inputs, false)
      else ([], inputs, false) := by
  simp only [runSet, hq, hs, if_false, hc]
  have h1 : (i : Int) + 1 - 1 = (i : Int) := add_sub_cancel_right _ _
  have h2 : (0 : Int) ≤ (i : Int) ∧ (i : Int) < (set.length : Int) :=
    ⟨Int.natCast_nonneg i, by exact_mod_cast hi⟩
  simp only [h1, if_pos h2, Int.toNat_natCast]

/-- C5: choosing to keep member `i + 1` of a set and confirming attempts
deletion of exactly the other members in original order (one fewer than
the member count, so keep plus confirm on a 3-member set attempts 2
deletions), while `s` (skip) attempts none and moves to the next set. -/
theorem claim_C5_keep_deletes_others (set : List FileEntry) (i : Nat)
    (c : String) (inputs : List String) (hi : i < set.length)
    (hq : norm c ≠ "q") (hs : norm c ≠ "s")
    (hc : parseInt (norm c) = some ((i : Int) + 1)) :
    runSet set (c :: "y" :: inputs) =
      (set.take i ++ set.drop (i + 1), inputs, false) ∧
    (runSet set (c :: "y" :: inputs)).1.length = set.length - 1 ∧
    runSet set ("s" :: inputs) = ([], inputs, false) := by
  have hkeep := runSet_keep set i hi c "y" inputs hq hs hc
  rw [if_pos (by decide : norm "y" = "y")] at hkeep
  refine ⟨?_, ?_, ?_⟩
  · rw [hkeep, List.eraseIdx_eq_take_drop_succ]
  · rw [hkeep]
    simp [List.length_eraseIdx, hi]
  · simp only [runSet]
    rw [if_neg (by decide : ¬ norm "s" = "q"),
      if_pos (by decide : norm "s" = "s")]

/-- C6: at the confirmation prompt, any response whose normalization is
not the explicit affirmative `y` — the empty string included — attempts no
deletion on that set and advances (no abort); conversely a nonempty delete
attempt list can only arise from the affirmative response. -/
theorem claim_C6_default_safe (set : List FileEntry) (i : Nat)
    (c conf : String) (inputs : List String) (hi : i < set.length)
    (hq : norm c ≠ "q") (hs : norm c ≠ "s")
    (hc : parseInt (norm c) = some ((i : Int) + 1))
    (hconf : norm conf ≠ "y") :
    runSet set (c :: conf :: inputs) = ([], inputs, false) ∧
    ∀ conf2 : String, (runSet set (c :: conf2 :: inputs)).1 ≠ [] →
      norm conf2 = "y" := by
  constructor
  · rw [runSet_keep set i hi c conf inputs hq hs hc, if_neg hconf]
  · intro conf2 hne
    by_contra hny
    rw [runSet_keep set i hi c conf2 inputs hq hs hc, if_neg hny] at hne
    exact hne rfl

/-- C7: a `q` response aborts the whole workflow at once — no set is
processed and nothing is deleted, whatever sets remain; any abort attempts
no further deletion; and a normally processed first set contributes its
delete attempts up front, so they persist when a later set aborts (no
rollback). -/
theorem claim_C7_abort_terminal (s : List FileEntry)
    (sets : List (List FileEntry)) (inputs more : List String)
    (d : List FileEntry) (rest : List String)
    (habort : (runSet s more).2.2 = true)
    (hrun : runSet s inputs = (d, rest, false)) :
    runSets (s :: sets) ("q" :: more) = [] ∧
    runSets (s :: sets) more = [] ∧
    runSets (s :: sets) inputs = d ++ runSets sets rest := by
  refine ⟨?_, ?_, ?_⟩
  · have h1 : runSet s ("q" :: more) = ([], more, true) := by
      simp only [runSet]
      rw [if_pos (by decide : norm "q" = "q")]
    simp [runSets, h1]
  · have h2 := runSet_abort_no_deletes s more habort
    simp [runSets, habort, h2]
  · simp [runSets, hrun]

/-- Witness for C1: in a scan of three files where `fxA`'s 1-byte size is
unique, `fxA` sits alone in its size bucket, is not hashed and joins no
duplicate set. -/
theorem claim_C1_witness :
    (fxA.size, [fxA]) ∈ sizeMap [fxA, fxC, fxD] 0 ∧
    (fxA ∉ filesToHash (sizeMap [fxA, fxC, fxD] 0) ∧
      (∀ p ∈ (ScanResult.mk [] []).duplicates, fxA ∉ p.2) ∧
      (∀ g ∈ filesToHash (sizeMap [fxA, fxC, fxD] 0),
        ∃ q ∈ sizeMap [fxA, fxC, fxD] 0, 1 < q.2.length ∧ g ∈ q.2)) :=
  ⟨by decide, claim_C1_unique_size_never_hashed [fxA, fxC, fxD] 0 fxSum
    ⟨[], []⟩ fxA rfl (by decide)⟩

/-- Witness for the amended C2: with a digest function injective on the two
scanned files' sizes, the one returned set has all members at the set's
digest and of equal size. -/
theorem claim_C2_witness :
    (∀ a ∈ [fxH1, fxH2], ∀ b ∈ [fxH1, fxH2],
      fxSum a.content = fxSum b.content → a.size = b.size) ∧
    (∀ p ∈ (ScanResult.mk [(7, [fxH1, fxH2])] []).duplicates, ∀ a ∈ p.2,
      fxSum a.content = p.1 ∧ ∀ b ∈ p.2, a.size = b.size) :=
  ⟨by decide, claim_C2_same_digest [fxH1, fxH2] 0 fxSum
    ⟨[(7, [fxH1, fxH2])], []⟩ rfl (by decide)⟩

/-- Witness for C4: scanning a 2-member size bucket whose member `fxU` is
unreadable yields no duplicate set and records `fxU` as the one failure. -/
theorem claim_C4_witness :
    fxU.readable = false ∧
    ((∀ p ∈ (ScanResult.mk [] [fxU]).duplicates, fxU ∉ p.2) ∧
      (fxU ∈ filesToHash (sizeMap [fxU, fxV] 0) →
        fxU ∈ (ScanResult.mk [] [fxU]).errors) ∧
      (∀ a b : FileEntry, a.isFile = true → a.statOk = true →
        b.isFile = true → b.statOk = true → b.size = a.size →
        a.readable = false → b.readable = true →
        find_duplicates true true [a, b] 0 fxSum = .ok ⟨[], [a]⟩)) :=
  ⟨by decide, claim_C4_read_failure [fxU, fxV] 0 fxSum ⟨[], [fxU]⟩ fxU
    rfl (by decide)⟩

/-- Witness for C5: keep index 1 on a 3-member set plus confirmation
attempts exactly the other two deletions, in order; skip attempts none. -/
theorem claim_C5_witness :
    (0 : Nat) < [fxK1, fxK2, fxK3].length ∧
    norm "1" ≠ "q" ∧ norm "1" ≠ "s" ∧
    parseInt (norm "1") = some (((0 : Nat) : Int) + 1) ∧
    (runSet [fxK1, fxK2, fxK3] ("1" :: "y" :: ["x"]) =
      ([fxK1, fxK2, fxK3].take 0 ++ [fxK1, fxK2, fxK3].drop (0 + 1),
        ["x"], false) ∧
    (runSet [fxK1, fxK2, fxK3] ("1" :: "y" :: ["x"])).1.length =
      [fxK1, fxK2, fxK3].length - 1 ∧
    runSet [fxK1, fxK2, fxK3] ("s" :: ["x"]) = ([], ["x"], false)) :=
  ⟨by decide, by decide, by decide, by decide,
    claim_C5_keep_deletes_others [fxK1, fxK2, fxK3] 0 "1" ["x"]
      (by decide) (by decide) (by decide) (by decide)⟩

/-- Witness for C6: an empty confirmation deletes nothing and advances. -/
theorem claim_C6_witness :
    norm "" ≠ "y" ∧
    (runSet [fxK1, fxK2, fxK3] ("1" :: "" :: []) = ([], [], false) ∧
    ∀ conf2 : String,
      (runSet [fxK1, fxK2, fxK3] ("1" :: conf2 :: [])).1 ≠ [] →
      norm conf2 = "y") :=
  ⟨by decide, claim_C6_default_safe [fxK1, fxK2, fxK3] 0 "1" "" []
    (by decide) (by decide) (by decide) (by decide) (by decide)⟩

/-- Witness for C7: `q` at the first set deletes nothing even with more
sets pending; a confirmed first set's deletions stay in front of whatever
the remaining sets contribute. -/
theorem claim_C7_witness :
    (runSet [fxK1, fxK2] ["q"]).2.2 = true ∧
    runSet [fxK1, fxK2] ["1", "y"] = ([fxK2], [], false) ∧
    (runSets ([fxK1, fxK2] :: [[fxA, fxB]]) ("q" :: ["q"]) = [] ∧
    runSets ([fxK1, fxK2] :: [[fxA, fxB]]) ["q"] = [] ∧
    runSets ([fxK1, fxK2] :: [[fxA, fxB]]) ["1", "y"] =
      [fxK2] ++ runSets [[fxA, fxB]] []) :=
  ⟨by decide, by decide,
    claim_C7_abort_terminal [fxK1, fxK2] [[fxA, fxB]] ["1", "y"] ["q"]
      [fxK2] [] (by decide) (by decide)⟩

/-- Witness for the amended C9: the directory entry `fxDir` joins no size
bucket and no duplicate set of a scan that does return one set. -/
theorem claim_C9_witness :
    fxDir.isFile = false ∧
    (¬ memberOf (sizeMap [fxDir, fxK1, fxK2] 0) fxDir ∧
      ∀ p ∈ (ScanResult.mk [(5, [fxK1, fxK2])] []).duplicates,
        fxDir ∉ p.2) :=
  ⟨by decide, claim_C9_directories_excluded [fxDir, fxK1, fxK2] 0 fxSum
    ⟨[(5, [fxK1, fxK2])], []⟩ fxDir rfl (by decide)⟩

/-- Witness for C10: a set whose first member's `stat` fails is priced at
size 0 and adds nothing to the wasted-space total. -/
theorem claim_C10_witness :
    fxStatFail.statOk = false ∧
    (get_file_info fxStatFail = ⟨0, "Unknown"⟩ ∧
      firstSize (fxStatFail :: [fxK1]) = 0 ∧
      totalWasted [(0, fxStatFail :: [fxK1])] = totalWasted []) :=
  ⟨by decide, claim_C10_stat_failure fxStatFail [fxK1] 0 [] (by decide)⟩
